import Mathlib

/-!
Verification development for the `gozk-recipes` distributed-lock core
(`src/lock/lock.go`).

The per-handle code (`GlobalLock.Lock` / `GlobalLock.Unlock`) is embedded
shallowly: the handle struct becomes `ZkRecipes.GlobalLock`, and each
response the ZooKeeper client can deliver to one of the client calls made
inside `Lock` (`Create`, `Children`, `ExistsW`) becomes an event of a
trace; `ZkRecipes.lock` interprets `Lock` over such a trace.  A separate
small-step transition system (`ZkRecipes.GState` / `ZkRecipes.Step`)
models any number of handles contending through the coordination service
and is used for the mutual-exclusion property.
-/

namespace ZkRecipes

/-! ## Go library helpers used by lock.go -/

/-- Go `path.Base`: returns the last element of the path after stripping
trailing slashes; `Base "" = "."` and a path of only slashes gives `"/"`. -/
def pathBase (p : String) : String :=
  if p = "" then "."
  else
    let cs := (p.data.reverse.dropWhile (fun c => c = '/')).reverse
    if cs = [] then "/"
    else String.mk ((cs.reverse.takeWhile (fun c => c ≠ '/')).reverse)

/-- Lexicographic strict comparison of character lists by code point.
Byte-wise comparison of UTF-8 strings (what Go's `<` on `string` does)
coincides with code-point lexicographic order, so this is Go's `a < b`. -/
def charListLt : List Char → List Char → Bool
  | [], [] => false
  | [], _ :: _ => true
  | _ :: _, [] => false
  | a :: as, b :: bs =>
      if a < b then true
      else if b < a then false
      else charListLt as bs

/-- Go's `a <= b` on strings: `!(b < a)`. -/
def goStringLe (a b : String) : Bool := ! charListLt b.data a.data

/-- Go's string `<=` as a decidable relation. -/
def goLe (a b : String) : Prop := goStringLe a b = true

instance : DecidableRel goLe :=
  fun a b => inferInstanceAs (Decidable (goStringLe a b = true))

/-- Go `sort.Strings`: sorts the slice ascending in lexicographic (byte)
order.  Since equal strings are interchangeable, any sorting algorithm
yields the same result; we use insertion sort. -/
def sortStrings (l : List String) : List String :=
  List.insertionSort goLe l

/-- The loop of Go `sort.Search` (binary search for the least index where
`f` holds, on the interval `[i, j)`), with the iteration count made
explicit as fuel.  The interval width strictly decreases each iteration,
so fuel `j - i` (at the top call, `n`) is always sufficient. -/
def searchLoop (f : Nat → Bool) : Nat → Nat → Nat → Nat
  | 0, i, _ => i
  | fuel + 1, i, j =>
      if i < j then
        if f ((i + j) / 2) then searchLoop f fuel i ((i + j) / 2)
        else searchLoop f fuel ((i + j) / 2 + 1) j
      else i

/-- Go `sort.Search n f`. -/
def goSearch (n : Nat) (f : Nat → Bool) : Nat := searchLoop f n 0 n

/-- Go `sort.SearchStrings a x` = `Search(len(a), func(i) { a[i] >= x })`. -/
def searchStrings (l : List String) (x : String) : Nat :=
  goSearch l.length (fun i => goStringLe x (l.getD i ""))

/-! ## The handle state and the errors `Lock`/`Unlock` can return -/

/-- The `GlobalLock` struct of lock.go (the session pointer is represented
by the response trace instead of being stored in the struct). -/
structure GlobalLock where
  root : String
  ephemeralPath : String
  locked : Bool
deriving DecidableEq

/-- The distinct errors `Lock`/`Unlock` can return:
`unknownStateNotObtained` is
`"Lock in unknown state. Ephemeral path %s exists but lock not obtained."`,
`unknownStateNoChildren` is
`"Lock in unknown state. Ephemeral path %s exists but there are no children."`,
and `client` is an error value propagated from a ZooKeeper client call. -/
inductive LockErr where
  | unknownStateNotObtained (p : String)
  | unknownStateNoChildren (p : String)
  | client (msg : String)
deriving DecidableEq

/-- One response delivered by the ZooKeeper client to a call made inside
`Lock`.  `createResp` is the `(path, err)` pair returned by `Create`;
`childrenResp` is the `(children, stat, err)` triple of `Children` with the
unused `stat` omitted; `existsResp` tells whether `ExistsW` found the node
(`stat != nil`) or failed.  A registered watch firing is implicit: after
`<-w` the next `existsResp` of the trace answers the re-issued `ExistsW`. -/
inductive ZkEvent where
  | createResp (path : String) (err : Option String)
  | childrenResp (children : List String) (err : Option String)
  | existsResp (statExists : Bool) (err : Option String)
deriving DecidableEq

/-- How a run of `Lock` ends: `ret e` is `return` with error `e` (`none`
is success), `panicked` is the Go runtime panic raised by the index
expression `children[myIndex-1]` when `myIndex = 0`. -/
inductive LockOutcome where
  | ret (err : Option LockErr)
  | panicked
deriving DecidableEq

/-- Position inside `Lock`'s nested loops: at the top of the outer loop
(about to call `Children`), or at the top of the inner loop (about to call
`ExistsW` on predecessor child `pred`). -/
inductive LockMode where
  | listChildren
  | watchPred (pred : String)
deriving DecidableEq

/-- The two nested loops of `GlobalLock.Lock` (lock.go lines 61-93),
interpreted against a trace of client responses.  Returns `none` when the
trace does not supply the response the next client call needs (e.g. the
run is still blocked in `<-w`); otherwise returns the final handle, the
outcome, and the unconsumed remainder of the trace.  Note that, exactly as
in the source, the error returned by `Children` is ignored: only the
returned list is inspected. -/
def lockSteps (g : GlobalLock) : LockMode → List ZkEvent → Option (GlobalLock × LockOutcome × List ZkEvent)
  | _, [] => none
  | .listChildren, .childrenResp cs _cerr :: rest =>
      let children := sortStrings cs
      if children.length = 0 then
        some (g, .ret (some (.unknownStateNoChildren g.ephemeralPath)), rest)
      else if children.headD "" = pathBase g.ephemeralPath then
        some ({ g with locked := true }, .ret none, rest)
      else if searchStrings children (pathBase g.ephemeralPath) = 0 then
        some (g, .panicked, rest)
      else
        lockSteps g (.watchPred (children.getD (searchStrings children (pathBase g.ephemeralPath) - 1) "")) rest
  | .watchPred pred, .existsResp statExists err :: rest =>
      match err with
      | some msg => some (g, .ret (some (.client msg)), rest)
      | none =>
          if statExists then lockSteps g (.watchPred pred) rest
          else lockSteps g .listChildren rest
  | .listChildren, _ :: _ => none
  | .watchPred _, _ :: _ => none

/-- `GlobalLock.Lock` (lock.go lines 41-96) over a trace of client
responses. -/
def lock (g : GlobalLock) (events : List ZkEvent) : Option (GlobalLock × LockOutcome × List ZkEvent) :=
  if g.locked then some (g, .ret none, events)
  else if 0 < g.ephemeralPath.length then
    some (g, .ret (some (.unknownStateNotObtained g.ephemeralPath)), events)
  else
    match events with
    | .createResp p cerr :: rest =>
        match cerr with
        | some msg => some ({ g with ephemeralPath := p }, .ret (some (.client msg)), rest)
        | none => lockSteps { g with ephemeralPath := p } .listChildren rest
    | _ => none

/-- The delete request `Unlock` issues: `Delete(g.ephemeralPath, -1)`. -/
structure DeleteReq where
  path : String
  version : Int
deriving DecidableEq

/-- The single client call made by `GlobalLock.Unlock` (lock.go line 99). -/
def unlockRequest (g : GlobalLock) : DeleteReq := ⟨g.ephemeralPath, -1⟩

/-- `GlobalLock.Unlock` (lock.go lines 98-105), given the error returned
by the `Delete` call. -/
def unlock (g : GlobalLock) (deleteErr : Option String) : GlobalLock × Option LockErr :=
  match deleteErr with
  | none => ({ g with ephemeralPath := "", locked := false }, none)
  | some msg => (g, some (.client msg))

/-- Modelled from the spec: the numeric sequence suffix of a child name
(spec section 3: a candidate node's name carries a monotonically
increasing integer suffix assigned by the service); for the all-digit
names the listing contains, this is their decimal value.  Used only to
compare the spec's "sorted by numeric sequence suffix" against the
code's string sort. -/
def seqSuffixVal (s : String) : Nat :=
  s.data.foldl (fun acc c => acc * 10 + (c.toNat - '0'.toNat)) 0

/-! ## Global model: many handles contending through the coordination service

Modelled from the spec: the coordination service itself is external to
this repository (spec section 2 specifies it as the Coordination Client:
ordered ephemeral node creation with a monotonically increasing sequence
counter, children listing as a point-in-time snapshot, a one-shot
existence watch on a single node, and deletion by path).  Candidate nodes
are represented by their sequence numbers — the service zero-pads names to
a fixed width, so lexicographic order of names agrees with numeric order
of the sequence numbers (spec section 3).  Each handle runs the algorithm
of `GlobalLock.Lock`/`GlobalLock.Unlock` (lock.go) over these operations,
one atomic client operation per transition. -/

/-- Program counter of one handle inside `Lock`: `idle` before `Create`,
`looping` at the top of the outer loop (about to call `Children`),
`waiting p` about to call `ExistsW` on predecessor `p`, `blocked p`
suspended on the watch channel for `p`, `stopped` after `Lock` returned. -/
inductive PC where
  | idle
  | looping
  | waiting (pred : Nat)
  | blocked (pred : Nat)
  | stopped
deriving DecidableEq

/-- One contender's handle: its candidate node (sequence number), where it
is inside `Lock`, and the `locked` field of `GlobalLock`. -/
structure Handle where
  node : Option Nat
  pc : PC
  locked : Bool
deriving DecidableEq

/-- A fresh handle. -/
def Handle.start : Handle := ⟨none, .idle, false⟩

/-- Global state: the service's next sequence number, the current children
of the lock root (as sequence numbers), and every contender's handle. -/
structure GState (ι : Type) where
  counter : Nat
  nodes : Finset Nat
  hs : ι → Handle

/-- The initial state: no children yet, every handle fresh. -/
def startState (ι : Type) : GState ι := ⟨0, ∅, fun _ => Handle.start⟩

/-- One atomic client operation by one contender, together with the local
processing that follows it in lock.go.  `create` is step (1); `listAcquire`
and `listWait` are steps (2)-(4) — the listing is an atomic snapshot of
`nodes`, the handle acquires when its own node is the head of the sorted
listing and otherwise identifies the predecessor `children[myIndex-1]`,
the greatest node below its own; `watchSet`/`watchAbsent` are step (5)'s
`ExistsW`; `wake` is the watch channel firing (the model lets a watch fire
at any time, which only adds behaviours); `release` is `Unlock`'s
successful `Delete`. -/
inductive Step {ι : Type} [DecidableEq ι] : GState ι → GState ι → Prop
  | create (s : GState ι) (i : ι) :
      (s.hs i).pc = .idle → (s.hs i).node = none → (s.hs i).locked = false →
      Step s ⟨s.counter + 1, insert s.counter s.nodes,
              Function.update s.hs i ⟨some s.counter, .looping, false⟩⟩
  | listAcquire (s : GState ι) (i : ι) (n : Nat) :
      (s.hs i).pc = .looping → (s.hs i).node = some n →
      n ∈ s.nodes → (∀ m ∈ s.nodes, n ≤ m) →
      Step s ⟨s.counter, s.nodes, Function.update s.hs i ⟨some n, .stopped, true⟩⟩
  | listWait (s : GState ι) (i : ι) (n p : Nat) :
      (s.hs i).pc = .looping → (s.hs i).node = some n →
      p ∈ s.nodes → p < n → (∀ m ∈ s.nodes, m < n → m ≤ p) →
      Step s ⟨s.counter, s.nodes,
              Function.update s.hs i ⟨some n, .waiting p, (s.hs i).locked⟩⟩
  | watchSet (s : GState ι) (i : ι) (p : Nat) :
      (s.hs i).pc = .waiting p → p ∈ s.nodes →
      Step s ⟨s.counter, s.nodes,
              Function.update s.hs i ⟨(s.hs i).node, .blocked p, (s.hs i).locked⟩⟩
  | watchAbsent (s : GState ι) (i : ι) (p : Nat) :
      (s.hs i).pc = .waiting p → p ∉ s.nodes →
      Step s ⟨s.counter, s.nodes,
              Function.update s.hs i ⟨(s.hs i).node, .looping, (s.hs i).locked⟩⟩
  | wake (s : GState ι) (i : ι) (p : Nat) :
      (s.hs i).pc = .blocked p →
      Step s ⟨s.counter, s.nodes,
              Function.update s.hs i ⟨(s.hs i).node, .waiting p, (s.hs i).locked⟩⟩
  | release (s : GState ι) (i : ι) (n : Nat) :
      (s.hs i).node = some n → n ∈ s.nodes →
      Step s ⟨s.counter, s.nodes.erase n, Function.update s.hs i ⟨none, .idle, false⟩⟩

/-- States reachable from the initial state by interleaved steps of any
of the contenders. -/
def Reachable {ι : Type} [DecidableEq ι] (s : GState ι) : Prop :=
  Relation.ReflTransGen Step (startState ι) s

/-- The inductive invariant: sequence numbers are below the counter and
assigned to at most one handle, every assigned node is a current child,
and a locked handle's node is the minimum child. -/
structure Inv {ι : Type} (s : GState ι) : Prop where
  nodes_lt : ∀ m ∈ s.nodes, m < s.counter
  node_lt : ∀ i n, (s.hs i).node = some n → n < s.counter
  node_inj : ∀ i j n, (s.hs i).node = some n → (s.hs j).node = some n → i = j
  node_mem : ∀ i n, (s.hs i).node = some n → n ∈ s.nodes
  locked_min : ∀ i, (s.hs i).locked = true →
    ∃ n, (s.hs i).node = some n ∧ ∀ m ∈ s.nodes, n ≤ m


/-! ## Order properties of the Go string comparison -/

lemma charListLt_asymm : ∀ (a b : List Char), charListLt a b = true → charListLt b a = false := by
  intro a
  induction a with
  | nil =>
      intro b h
      cases b with
      | nil => simp [charListLt] at h
      | cons hb tb => rfl
  | cons ha ta ih =>
      intro b h
      cases b with
      | nil => simp [charListLt] at h
      | cons hb tb =>
          simp only [charListLt] at h ⊢
          by_cases h1 : ha < hb
          · rw [if_neg (lt_asymm h1), if_pos h1]
          · by_cases h2 : hb < ha
            · simp [h1, h2] at h
            · rw [if_neg h1, if_neg h2] at h
              rw [if_neg h2, if_neg h1]
              exact ih tb h

lemma charListLt_connex : ∀ (a b : List Char), charListLt a b = false → charListLt b a = false → a = b := by
  intro a
  induction a with
  | nil =>
      intro b h1 _
      cases b with
      | nil => rfl
      | cons hb tb => simp [charListLt] at h1
  | cons ha ta ih =>
      intro b h1 h2
      cases b with
      | nil => simp [charListLt] at h2
      | cons hb tb =>
          simp only [charListLt] at h1 h2
          by_cases hab : ha < hb
          · simp [hab] at h1
          · by_cases hba : hb < ha
            · simp [hba, lt_asymm hba] at h2
            · rw [if_neg hab, if_neg hba] at h1
              rw [if_neg hba, if_neg hab] at h2
              rw [le_antisymm (le_of_not_lt hba) (le_of_not_lt hab), ih tb h1 h2]

lemma charListLt_trans_neg : ∀ (a b c : List Char),
    charListLt b a = false → charListLt c b = false → charListLt c a = false := by
  intro a
  induction a with
  | nil =>
      intro b c _ _
      cases c with
      | nil => rfl
      | cons hc tc => rfl
  | cons ha ta ih =>
      intro b c h1 h2
      cases b with
      | nil => simp [charListLt] at h1
      | cons hb tb =>
          cases c with
          | nil => simp [charListLt] at h2
          | cons hc tc =>
              simp only [charListLt] at h1 h2 ⊢
              by_cases hba : hb < ha
              · simp [hba] at h1
              · by_cases hcb : hc < hb
                · simp [hcb] at h2
                · have hca : ¬ hc < ha := fun hlt =>
                    absurd (lt_of_lt_of_le hlt (le_of_not_lt hba)) hcb
                  rw [if_neg hca]
                  by_cases hac : ha < hc
                  · rw [if_pos hac]
                  · rw [if_neg hac]
                    have hhc : ha = hc := le_antisymm (le_of_not_lt hca) (le_of_not_lt hac)
                    by_cases habh : ha < hb
                    · exact absurd (hhc ▸ habh) hcb
                    · rw [if_neg hba, if_neg habh] at h1
                      have hbc : ¬ hb < hc := fun hlt =>
                        hac (lt_of_le_of_lt (le_of_not_lt hba) hlt)
                      rw [if_neg hcb, if_neg hbc] at h2
                      exact ih tb tc h1 h2

lemma goStringLe_total (a b : String) : goStringLe a b = true ∨ goStringLe b a = true := by
  by_cases h : charListLt b.data a.data = true
  · right
    simp [goStringLe, charListLt_asymm _ _ h]
  · left
    simp [goStringLe, Bool.not_eq_true] at h ⊢
    exact h

lemma goStringLe_trans {a b c : String} (h1 : goStringLe a b = true) (h2 : goStringLe b c = true) :
    goStringLe a c = true := by
  simp only [goStringLe, Bool.not_eq_true'] at h1 h2 ⊢
  exact charListLt_trans_neg a.data b.data c.data h1 h2

lemma goStringLe_antisymm {a b : String} (h1 : goStringLe a b = true) (h2 : goStringLe b a = true) :
    a = b := by
  simp only [goStringLe, Bool.not_eq_true'] at h1 h2
  exact congrArg String.mk (charListLt_connex a.data b.data h2 h1)

instance : IsTotal String goLe := ⟨goStringLe_total⟩

instance : IsTrans String goLe := ⟨fun _ _ _ => goStringLe_trans⟩

/-! ## Correctness of the embedded `sort.Search` -/

lemma searchLoop_le (f : Nat → Bool) :
    ∀ (fuel i j : Nat), i ≤ j → i ≤ searchLoop f fuel i j ∧ searchLoop f fuel i j ≤ j := by
  intro fuel
  induction fuel with
  | zero => intro i j hij; exact ⟨le_refl i, hij⟩
  | succ fuel ih =>
      intro i j hij
      by_cases hlt : i < j
      · have h1 : i ≤ (i + j) / 2 := by omega
        have h2 : (i + j) / 2 < j := by omega
        by_cases hf : f ((i + j) / 2) = true
        · have := ih i ((i + j) / 2) h1
          simp only [searchLoop, if_pos hlt, if_pos hf]
          omega
        · have := ih ((i + j) / 2 + 1) j (by omega)
          simp only [searchLoop, if_pos hlt, if_neg hf]
          omega
      · simp only [searchLoop, if_neg hlt]
        exact ⟨le_refl i, hij⟩

lemma searchLoop_spec (n : Nat) (f : Nat → Bool)
    (mono : ∀ a b, a ≤ b → b < n → f a = true → f b = true) :
    ∀ (fuel i j : Nat), j ≤ n → i ≤ j → j - i ≤ fuel →
      (∀ k, k < i → f k = false) → (∀ k, j ≤ k → k < n → f k = true) →
      (∀ k, k < searchLoop f fuel i j → f k = false)
      ∧ (∀ k, searchLoop f fuel i j ≤ k → k < n → f k = true) := by
  intro fuel
  induction fuel with
  | zero =>
      intro i j hjn hij hfuel hlo hhi
      have hji : i = j := by omega
      subst hji
      exact ⟨hlo, hhi⟩
  | succ fuel ih =>
      intro i j hjn hij hfuel hlo hhi
      by_cases hlt : i < j
      · have h1 : i ≤ (i + j) / 2 := by omega
        have h2 : (i + j) / 2 < j := by omega
        by_cases hf : f ((i + j) / 2) = true
        · have hhi' : ∀ k, (i + j) / 2 ≤ k → k < n → f k = true :=
            fun k hk1 hk2 => mono ((i + j) / 2) k hk1 hk2 hf
          have := ih i ((i + j) / 2) (by omega) h1 (by omega) hlo hhi'
          simpa only [searchLoop, if_pos hlt, if_pos hf] using this
        · have hlo' : ∀ k, k < (i + j) / 2 + 1 → f k = false := by
            intro k hk
            cases hfk : f k with
            | false => rfl
            | true => exact absurd (mono k ((i + j) / 2) (by omega) (by omega) hfk) hf
          have := ih ((i + j) / 2 + 1) j hjn (by omega) (by omega) hlo' hhi
          simpa only [searchLoop, if_pos hlt, if_neg hf] using this
      · have hji : i = j := by omega
        subst hji
        simp only [searchLoop, if_neg hlt]
        exact ⟨hlo, hhi⟩

/-- `getD` with the default never used equals `get`. -/
lemma getD_eq_get (l : List String) (k : Nat) (hk : k < l.length) :
    l.getD k "" = l.get ⟨k, hk⟩ := by
  rw [List.getD_eq_getElem l "" hk, List.get_eq_getElem]

/-- In a `goLe`-sorted list, earlier entries are `goLe` later ones. -/
lemma sorted_getD_le (l : List String) (hsort : List.Sorted goLe l)
    (a b : Nat) (hab : a ≤ b) (hb : b < l.length) :
    goStringLe (l.getD a "") (l.getD b "") = true := by
  rcases Nat.lt_or_ge a b with h | h
  · have := (List.pairwise_iff_get.mp hsort) ⟨a, by omega⟩ ⟨b, hb⟩ h
    rw [getD_eq_get l a (by omega), getD_eq_get l b hb]
    exact this
  · have hba : a = b := by omega
    subst hba
    cases hc : charListLt (l.getD a "").data (l.getD a "").data with
    | false => simp only [goStringLe, hc, Bool.not_false]
    | true =>
        have h2 := charListLt_asymm _ _ hc
        rw [h2] at hc
        exact Bool.noConfusion hc

/-- Characterisation of `searchStrings` on a sorted list: everything
before the returned index is `< x`, everything from it on is `>= x`. -/
lemma searchStrings_spec (l : List String) (x : String) (hsort : List.Sorted goLe l) :
    (∀ k, k < searchStrings l x → goStringLe x (l.getD k "") = false)
    ∧ (∀ k, searchStrings l x ≤ k → k < l.length → goStringLe x (l.getD k "") = true) := by
  have mono : ∀ a b, a ≤ b → b < l.length →
      goStringLe x (l.getD a "") = true → goStringLe x (l.getD b "") = true :=
    fun a b hab hb ha => goStringLe_trans ha (sorted_getD_le l hsort a b hab hb)
  have main := searchLoop_spec l.length (fun i => goStringLe x (l.getD i "")) mono
    l.length 0 l.length (le_refl _) (Nat.zero_le _) (by omega)
    (fun k hk => absurd hk (Nat.not_lt_zero k))
    (fun k h1 h2 => absurd h2 (by omega))
  exact main

/-- `searchStrings` never exceeds the list length. -/
lemma searchStrings_le_length (l : List String) (x : String) :
    searchStrings l x ≤ l.length :=
  (searchLoop_le (fun i => goStringLe x (l.getD i "")) l.length 0 l.length (Nat.zero_le _)).2

/-! ## Structural facts about the `Lock` interpreter -/

/-- A run of the loops either leaves the handle untouched, or sets
`locked := true` and returns success: the head-of-children match is the
only exit that grants ownership. -/
lemma lockSteps_state (g : GlobalLock) :
    ∀ (evs : List ZkEvent) (m : LockMode) (r : GlobalLock × LockOutcome × List ZkEvent),
      lockSteps g m evs = some r →
      r.1 = g ∨ (r.1 = { g with locked := true } ∧ r.2.1 = LockOutcome.ret none) := by
  intro evs
  induction evs with
  | nil => intro m r h; simp [lockSteps] at h
  | cons e rest ih =>
      intro m r h
      cases m with
      | listChildren =>
          cases e with
          | createResp p cerr => simp [lockSteps] at h
          | existsResp st err => simp [lockSteps] at h
          | childrenResp cs cerr =>
              simp only [lockSteps] at h
              split_ifs at h with h0 h1 h2
              · exact Or.inl (by injection h with h'; rw [← h'])
              · exact Or.inr (by injection h with h'; rw [← h']; exact ⟨rfl, rfl⟩)
              · exact Or.inl (by injection h with h'; rw [← h'])
              · exact ih _ _ h
      | watchPred pred =>
          cases e with
          | createResp p cerr => simp [lockSteps] at h
          | childrenResp cs cerr => simp [lockSteps] at h
          | existsResp st err =>
              cases err with
              | some msg =>
                  simp only [lockSteps] at h
                  exact Or.inl (by injection h with h'; rw [← h'])
              | none =>
                  cases st with
                  | true =>
                      simp only [lockSteps, if_pos] at h
                      exact ih _ _ h
                  | false =>
                      simp only [lockSteps, Bool.false_eq_true, if_false] at h
                      exact ih _ _ h

lemma inv_start (ι : Type) : Inv (startState ι) := by
  refine ⟨?_, ?_, ?_, ?_, ?_⟩
  · intro m hm; exact absurd hm (Finset.not_mem_empty m)
  · intro i n h; exact absurd h (by simp [startState, Handle.start])
  · intro i j n h _; exact absurd h (by simp [startState, Handle.start])
  · intro i n h; exact absurd h (by simp [startState, Handle.start])
  · intro i h; exact absurd h (by simp [startState, Handle.start])

/-- Steps that keep the counter, the children and the handle's `node` and
`locked` fields preserve the invariant. -/
lemma inv_update_frame {ι : Type} [DecidableEq ι] {s : GState ι} (hInv : Inv s)
    (i : ι) (h' : Handle)
    (hnode : h'.node = (s.hs i).node) (hlocked : h'.locked = (s.hs i).locked) :
    Inv ⟨s.counter, s.nodes, Function.update s.hs i h'⟩ := by
  obtain ⟨h1, h2, h3, h4, h5⟩ := hInv
  refine ⟨h1, ?_, ?_, ?_, ?_⟩ <;> dsimp only
  · intro j n hj
    by_cases hji : j = i
    · subst hji; rw [Function.update_same] at hj; exact h2 j n (hnode ▸ hj)
    · rw [Function.update_noteq hji] at hj; exact h2 j n hj
  · intro j k n hj hk
    by_cases hji : j = i
    · subst hji; rw [Function.update_same] at hj
      by_cases hki : k = j
      · subst hki; rfl
      · rw [Function.update_noteq hki] at hk; exact h3 j k n (hnode ▸ hj) hk
    · rw [Function.update_noteq hji] at hj
      by_cases hki : k = i
      · subst hki; rw [Function.update_same] at hk; exact h3 j k n hj (hnode ▸ hk)
      · rw [Function.update_noteq hki] at hk; exact h3 j k n hj hk
  · intro j n hj
    by_cases hji : j = i
    · subst hji; rw [Function.update_same] at hj; exact h4 j n (hnode ▸ hj)
    · rw [Function.update_noteq hji] at hj; exact h4 j n hj
  · intro j hj
    by_cases hji : j = i
    · subst hji; rw [Function.update_same] at hj
      obtain ⟨n, hn, hmin⟩ := h5 j (hlocked ▸ hj)
      exact ⟨n, by rw [Function.update_same, hnode]; exact hn, hmin⟩
    · rw [Function.update_noteq hji] at hj
      obtain ⟨n, hn, hmin⟩ := h5 j hj
      exact ⟨n, by rw [Function.update_noteq hji]; exact hn, hmin⟩

lemma inv_step {ι : Type} [DecidableEq ι] {s t : GState ι}
    (hInv : Inv s) (st : Step s t) : Inv t := by
  cases st with
  | create i hpc hnode hlocked =>
      obtain ⟨h1, h2, h3, h4, h5⟩ := hInv
      refine ⟨?_, ?_, ?_, ?_, ?_⟩ <;> dsimp only
      · intro m hm
        rcases Finset.mem_insert.mp hm with hm | hm
        · omega
        · have := h1 m hm; omega
      · intro j n hj
        by_cases hji : j = i
        · subst hji; rw [Function.update_same] at hj
          injection hj with hj; omega
        · rw [Function.update_noteq hji] at hj
          have := h2 j n hj; omega
      · intro j k n hj hk
        by_cases hji : j = i
        · subst hji; rw [Function.update_same] at hj
          injection hj with hj
          by_cases hki : k = j
          · subst hki; rfl
          · rw [Function.update_noteq hki] at hk
            have := h2 k n hk; omega
        · rw [Function.update_noteq hji] at hj
          by_cases hki : k = i
          · subst hki; rw [Function.update_same] at hk
            injection hk with hk
            have := h2 j n hj; omega
          · rw [Function.update_noteq hki] at hk
            exact h3 j k n hj hk
      · intro j n hj
        by_cases hji : j = i
        · subst hji; rw [Function.update_same] at hj
          injection hj with hj
          exact Finset.mem_insert.mpr (Or.inl hj.symm)
        · rw [Function.update_noteq hji] at hj
          exact Finset.mem_insert.mpr (Or.inr (h4 j n hj))
      · intro j hj
        by_cases hji : j = i
        · subst hji; rw [Function.update_same] at hj
          exact absurd hj (by simp)
        · rw [Function.update_noteq hji] at hj
          obtain ⟨n, hn, hmin⟩ := h5 j hj
          refine ⟨n, by rw [Function.update_noteq hji]; exact hn, ?_⟩
          intro m hm
          rcases Finset.mem_insert.mp hm with hm | hm
          · have := h2 j n hn; omega
          · exact hmin m hm
  | listAcquire i n hpc hnode hmem hmin =>
      obtain ⟨h1, h2, h3, h4, h5⟩ := hInv
      refine ⟨h1, ?_, ?_, ?_, ?_⟩ <;> dsimp only
      · intro j m hj
        by_cases hji : j = i
        · subst hji; rw [Function.update_same] at hj
          injection hj with hj
          exact hj ▸ h2 j n hnode
        · rw [Function.update_noteq hji] at hj; exact h2 j m hj
      · intro j k m hj hk
        by_cases hji : j = i
        · subst hji; rw [Function.update_same] at hj
          injection hj with hj
          subst hj
          by_cases hki : k = j
          · subst hki; rfl
          · rw [Function.update_noteq hki] at hk
            exact h3 j k n hnode hk
        · rw [Function.update_noteq hji] at hj
          by_cases hki : k = i
          · subst hki; rw [Function.update_same] at hk
            injection hk with hk
            subst hk
            exact h3 j k n hj hnode
          · rw [Function.update_noteq hki] at hk
            exact h3 j k m hj hk
      · intro j m hj
        by_cases hji : j = i
        · subst hji; rw [Function.update_same] at hj
          injection hj with hj
          exact hj ▸ hmem
        · rw [Function.update_noteq hji] at hj; exact h4 j m hj
      · intro j hj
        by_cases hji : j = i
        · subst hji
          exact ⟨n, by rw [Function.update_same], hmin⟩
        · rw [Function.update_noteq hji] at hj
          obtain ⟨m, hm, hmmin⟩ := h5 j hj
          exact ⟨m, by rw [Function.update_noteq hji]; exact hm, hmmin⟩
  | listWait i n p hpc hnode hpmem hplt hpmax =>
      exact inv_update_frame hInv i _ (by rw [hnode]) rfl
  | watchSet i p hpc hpmem =>
      exact inv_update_frame hInv i _ rfl rfl
  | watchAbsent i p hpc hpmem =>
      exact inv_update_frame hInv i _ rfl rfl
  | wake i p hpc =>
      exact inv_update_frame hInv i _ rfl rfl
  | release i n hnode hmem =>
      obtain ⟨h1, h2, h3, h4, h5⟩ := hInv
      refine ⟨?_, ?_, ?_, ?_, ?_⟩ <;> dsimp only
      · intro m hm; exact h1 m (Finset.mem_of_mem_erase hm)
      · intro j m hj
        by_cases hji : j = i
        · subst hji; rw [Function.update_same] at hj; exact absurd hj (by simp)
        · rw [Function.update_noteq hji] at hj; exact h2 j m hj
      · intro j k m hj hk
        by_cases hji : j = i
        · subst hji; rw [Function.update_same] at hj; exact absurd hj (by simp)
        · rw [Function.update_noteq hji] at hj
          by_cases hki : k = i
          · subst hki; rw [Function.update_same] at hk; exact absurd hk (by simp)
          · rw [Function.update_noteq hki] at hk
            exact h3 j k m hj hk
      · intro j m hj
        by_cases hji : j = i
        · subst hji; rw [Function.update_same] at hj; exact absurd hj (by simp)
        · rw [Function.update_noteq hji] at hj
          refine Finset.mem_erase.mpr ⟨?_, h4 j m hj⟩
          intro hmn
          exact hji (h3 j i m hj (hmn ▸ hnode))
      · intro j hj
        by_cases hji : j = i
        · subst hji; rw [Function.update_same] at hj
          exact absurd hj (by simp)
        · rw [Function.update_noteq hji] at hj
          obtain ⟨m, hm, hmmin⟩ := h5 j hj
          refine ⟨m, by rw [Function.update_noteq hji]; exact hm, ?_⟩
          intro k hk
          exact hmmin k (Finset.mem_of_mem_erase hk)

lemma inv_reachable {ι : Type} [DecidableEq ι] {s : GState ι} (h : Reachable s) : Inv s := by
  induction h with
  | refl => exact inv_start ι
  | tail _ st ih => exact inv_step ih st

/-! ## Unfolding helpers for the `Lock` interpreter -/

lemma length_pos_of_ne_empty (s : String) (h : s ≠ "") : 0 < s.length := by
  cases s with
  | mk data =>
      cases data with
      | nil => exact absurd rfl h
      | cons c cs => simp [String.length]

/-- `Lock` on an idle handle: the `Create` response is consumed first. -/
lemma lock_create (g : GlobalLock) (p : String) (cerr : Option String) (rest : List ZkEvent)
    (hlock : g.locked = false) (hpath : g.ephemeralPath = "") :
    lock g (.createResp p cerr :: rest)
      = match cerr with
        | some msg => some ({ g with ephemeralPath := p }, .ret (some (.client msg)), rest)
        | none => lockSteps { g with ephemeralPath := p } .listChildren rest := by
  simp [lock, hlock, hpath]

/-- One outer-loop iteration of `Lock`, written out. -/
lemma lockSteps_children (g : GlobalLock) (cs : List String) (cerr : Option String)
    (rest : List ZkEvent) :
    lockSteps g .listChildren (.childrenResp cs cerr :: rest)
      = (if (sortStrings cs).length = 0 then
          some (g, .ret (some (.unknownStateNoChildren g.ephemeralPath)), rest)
        else if (sortStrings cs).headD "" = pathBase g.ephemeralPath then
          some ({ g with locked := true }, .ret none, rest)
        else if searchStrings (sortStrings cs) (pathBase g.ephemeralPath) = 0 then
          some (g, .panicked, rest)
        else
          lockSteps g
            (.watchPred ((sortStrings cs).getD
              (searchStrings (sortStrings cs) (pathBase g.ephemeralPath) - 1) "")) rest) := rfl

/-! ## Claims -/

/-- Claim C10: calling `Lock` on a handle whose `locked` field is already
true returns success immediately, consumes no client response (so no
Coordination Client operation is invoked), and leaves the whole handle —
`root`, `ephemeralPath` and `locked` — unchanged. -/
theorem already_locked_noop :
    ∀ (g : GlobalLock) (evs : List ZkEvent),
      g.locked = true → lock g evs = some (g, .ret none, evs) := by
  intro g evs h
  simp [lock, h]

/-- Witness for C10 at a concrete locked handle. -/
theorem already_locked_witness :
    lock ⟨"/lock", "/lock/0000000001", true⟩ []
      = some (⟨"/lock", "/lock/0000000001", true⟩, .ret none, []) :=
  already_locked_noop ⟨"/lock", "/lock/0000000001", true⟩ [] rfl

/-- Claim C6: calling `Lock` on a handle with a non-empty candidate path
but `locked = false` returns the distinct ambiguous-state error
(`unknownStateNotObtained`, a constructor different from the other two
error kinds), consumes no client response (in particular no second
candidate node is created), and returns the handle unchanged. -/
theorem ambiguous_state_rejected :
    ∀ (g : GlobalLock) (evs : List ZkEvent),
      g.locked = false → g.ephemeralPath ≠ "" →
      lock g evs = some (g, .ret (some (.unknownStateNotObtained g.ephemeralPath)), evs) := by
  intro g evs hlock hpath
  have hlen : 0 < g.ephemeralPath.length := length_pos_of_ne_empty _ hpath
  simp [lock, hlock, hlen]

/-- Witness for C6 at a concrete dangling handle. -/
theorem ambiguous_state_witness :
    lock ⟨"/lock", "/lock/0000000009", false⟩ []
      = some (⟨"/lock", "/lock/0000000009", false⟩,
              .ret (some (.unknownStateNotObtained "/lock/0000000009")), []) :=
  ambiguous_state_rejected ⟨"/lock", "/lock/0000000009", false⟩ [] rfl (by decide)

/-- Claim C7: if the children listing comes back empty right after this
call's `Create` succeeded, `Lock` returns the state-consistency error
(`unknownStateNoChildren`, not success), and the handle's `locked` field
stays false. -/
theorem empty_children_state_error :
    ∀ (g : GlobalLock) (p : String) (cerr : Option String) (rest : List ZkEvent),
      g.locked = false → g.ephemeralPath = "" →
      lock g (.createResp p none :: .childrenResp [] cerr :: rest)
        = some ({ g with ephemeralPath := p },
                .ret (some (.unknownStateNoChildren p)), rest)
      ∧ ({ g with ephemeralPath := p } : GlobalLock).locked = false := by
  intro g p cerr rest hlock hpath
  constructor
  · rw [lock_create g p none (.childrenResp [] cerr :: rest) hlock hpath, lockSteps_children]
    simp [sortStrings]
  · exact hlock

/-- Witness for C7 at a concrete trace. -/
theorem empty_children_witness :
    lock ⟨"/lock", "", false⟩
        [.createResp "/lock/0000000001" none, .childrenResp [] none]
      = some (⟨"/lock", "/lock/0000000001", false⟩,
              .ret (some (.unknownStateNoChildren "/lock/0000000001")), [])
    ∧ (⟨"/lock", "/lock/0000000001", false⟩ : GlobalLock).locked = false :=
  empty_children_state_error ⟨"/lock", "", false⟩ "/lock/0000000001" none [] rfl rfl

/-- Claim C2 (failing input): `Create` succeeds with
`/lock/0000000001`, then `Children` fails with error
`zk: connection closed` (returning, as gozk does on failure, an empty
list).  The code assigns that error to `err` at lock.go:63 but never
checks it: it falls through to the empty-list test and returns the
`unknownStateNoChildren` state error instead of propagating the client
error, contradicting the claim that every Coordination Client failure is
propagated verbatim and never misreported as a different error kind. -/
theorem children_error_swallowed :
    lock ⟨"/lock", "", false⟩
        [.createResp "/lock/0000000001" none,
         .childrenResp [] (some "zk: connection closed")]
      = some (⟨"/lock", "/lock/0000000001", false⟩,
              .ret (some (.unknownStateNoChildren "/lock/0000000001")), []) := by
  decide

/-- Claim C8: `Unlock` deletes by path with the version check disabled
(version `-1`); on success it resets `ephemeralPath` to empty and
`locked` to false; on failure it returns the client error and leaves the
handle (all fields) unchanged. -/
theorem unlock_unconditional_delete :
    ∀ (g : GlobalLock) (msg : String),
      (unlockRequest g).path = g.ephemeralPath
      ∧ (unlockRequest g).version = -1
      ∧ unlock g none = ({ g with ephemeralPath := "", locked := false }, none)
      ∧ unlock g (some msg) = (g, some (.client msg)) :=
  fun _ _ => ⟨rfl, rfl, rfl, rfl⟩

/-- Claim C5: when the handle's own base name equals the head of the
sorted listing, `Lock` sets `locked := true` and returns success
consuming nothing beyond the listing (so no `ExistsW` watch is
registered — in particular a sole child acquires with no watch at all);
and this is the only exit of `Lock` that can produce a handle with
`locked = true` from one without it: any successfully-returned result
whose handle is locked carries the success outcome. -/
theorem min_match_acquires_only_exit :
    (∀ (g : GlobalLock) (p : String) (cs : List String) (cerr : Option String)
        (rest : List ZkEvent),
        g.locked = false → g.ephemeralPath = "" →
        sortStrings cs ≠ [] →
        (sortStrings cs).headD "" = pathBase p →
        lock g (.createResp p none :: .childrenResp cs cerr :: rest)
          = some ({ g with ephemeralPath := p, locked := true }, .ret none, rest))
    ∧ (∀ (g : GlobalLock) (evs : List ZkEvent) (r : GlobalLock × LockOutcome × List ZkEvent),
        lock g evs = some r → r.1.locked = true → r.2.1 = LockOutcome.ret none) := by
  constructor
  · intro g p cs cerr rest hlock hpath hne hhead
    rw [lock_create g p none (.childrenResp cs cerr :: rest) hlock hpath, lockSteps_children]
    have hlen : ¬ (sortStrings cs).length = 0 := by
      simpa [List.length_eq_zero] using hne
    rw [if_neg hlen, if_pos hhead]
  · intro g evs r h hlocked
    by_cases hg : g.locked = true
    · simp [lock, hg] at h
      subst h
      rfl
    · have hgf : g.locked = false := by revert hg; cases g.locked <;> simp
      by_cases hpl : 0 < g.ephemeralPath.length
      · simp [lock, hgf, hpl] at h
        subst h
        rw [hgf] at hlocked
        exact Bool.noConfusion hlocked
      · cases evs with
        | nil => simp [lock, hgf, hpl] at h
        | cons e rest =>
            cases e with
            | childrenResp cs cerr => simp [lock, hgf, hpl] at h
            | existsResp st err => simp [lock, hgf, hpl] at h
            | createResp p cerr =>
                cases cerr with
                | some msg =>
                    simp [lock, hgf, hpl] at h
                    subst h
                    simp [hgf] at hlocked
                | none =>
                    have h' : lockSteps { g with ephemeralPath := p } .listChildren rest
                        = some r := by
                      rw [lock_create g p none rest hgf ?hp] at h
                      · exact h
                      · revert hpl
                        cases hstr : g.ephemeralPath with
                        | mk data =>
                            cases data with
                            | nil => intro _; rfl
                            | cons c cs => intro hpl; exact absurd (by simp [String.length]) hpl
                    rcases lockSteps_state { g with ephemeralPath := p } rest .listChildren r h'
                      with h1 | ⟨h1, h2⟩
                    · rw [h1] at hlocked
                      simp [hgf] at hlocked
                    · exact h2

/-- Witness for C5 (sole-child scenario): one candidate, one child,
acquired with no `ExistsW` consumed. -/
theorem min_match_acquires_witness :
    lock ⟨"/lock", "", false⟩
        [.createResp "/lock/0000000001" none, .childrenResp ["0000000001"] none]
      = some (⟨"/lock", "/lock/0000000001", true⟩, .ret none, []) :=
  min_match_acquires_only_exit.1 ⟨"/lock", "", false⟩ "/lock/0000000001" ["0000000001"] none []
    rfl rfl (by decide) (by decide)

/-- Claim C3 (counterexample): after the watch on the predecessor fires
(`existsResp true none` consumed, then the watch channel delivers), the
code does not return to step 1: a trace that offers the re-listing the
claim promises gets stuck (first conjunct, `none`: the code demands
another `ExistsW` response for the same predecessor), while the trace
that answers that repeated `ExistsW` with "absent" and only then lists
the children completes and acquires (second conjunct). -/
theorem watch_fire_relist_counterexample :
    lock ⟨"/lock", "", false⟩
        [.createResp "/lock/0000000002" none,
         .childrenResp ["0000000001", "0000000002"] none,
         .existsResp true none,
         .childrenResp ["0000000002"] none] = none
    ∧ lock ⟨"/lock", "", false⟩
        [.createResp "/lock/0000000002" none,
         .childrenResp ["0000000001", "0000000002"] none,
         .existsResp true none,
         .existsResp false none,
         .childrenResp ["0000000002"] none]
      = some (⟨"/lock", "/lock/0000000002", true⟩, .ret none, []) :=
  ⟨by decide, by decide⟩

/-- Claim C3 (amended): in step 5, if the predecessor is absent at
registration time the code skips waiting and returns to step 1 (re-lists)
immediately; but after a registered watch fires it re-examines the same
predecessor — it re-issues `ExistsW` on the identical path from the stale
listing — and returns to step 1 only once that predecessor is observed
absent. -/
theorem watch_fire_reexamines_same_pred :
    ∀ (g : GlobalLock) (pred : String) (rest : List ZkEvent),
      lockSteps g (.watchPred pred) (.existsResp false none :: rest)
        = lockSteps g .listChildren rest
      ∧ lockSteps g (.watchPred pred) (.existsResp true none :: rest)
        = lockSteps g (.watchPred pred) rest :=
  fun _ _ _ => ⟨rfl, rfl⟩

/-- Claim C4 (counterexample): the code sorts the listing with
`sort.Strings`, i.e. lexicographically, not by numeric sequence suffix:
on the listing `["10", "9"]` the sorted result keeps `"10"` (numeric
suffix 10) ahead of `"9"` (numeric suffix 9), so the output is not
sorted by numeric suffix ascending and its first element is not the
child with the smallest sequence number. -/
theorem numeric_sort_counterexample :
    sortStrings ["10", "9"] = ["10", "9"]
    ∧ ¬ List.Sorted (fun a b => seqSuffixVal a ≤ seqSuffixVal b) (sortStrings ["10", "9"]) := by
  refine ⟨by decide, ?_⟩
  intro h
  have e : sortStrings ["10", "9"] = ["10", "9"] := by decide
  rw [e] at h
  have := List.rel_of_sorted_cons h "9" (List.mem_cons_self _ _)
  revert this
  decide

/-- Claim C4 (amended): every listing used in step 1 is sorted
lexicographically (byte order, `goLe`) ascending, so the first element is
the lexicographically smallest child — which coincides with the smallest
sequence number only for the service's fixed-width zero-padded names. -/
theorem children_sorted_lex (cs : List String) : List.Sorted goLe (sortStrings cs) :=
  List.sorted_insertionSort goLe cs

/-- Claim C9 (counterexample): if the listing does not contain the
handle's own base name and every entry is greater, `SearchStrings`
returns 0 and the access `children[myIndex-1]` is out of bounds — the
embedded run panics: own name `a`, listing `["b"]`. -/
theorem pred_index_out_of_bounds_counterexample :
    lock ⟨"/r", "", false⟩ [.createResp "/r/a" none, .childrenResp ["b"] none]
      = some (⟨"/r", "/r/a", false⟩, .panicked, []) := by
  decide

/-- Claim C9 (amended): whenever the sorted listing does contain the
handle's own base name and its head differs from it, the index computed
by `SearchStrings` is at least 1 and the predecessor access at
`index - 1` is in bounds. -/
theorem pred_index_in_bounds_of_mem (cs : List String) (x : String)
    (hx : x ∈ sortStrings cs) (hne : (sortStrings cs).headD "" ≠ x) :
    1 ≤ searchStrings (sortStrings cs) x
    ∧ searchStrings (sortStrings cs) x - 1 < (sortStrings cs).length := by
  have hsort : List.Sorted goLe (sortStrings cs) := List.sorted_insertionSort goLe cs
  have hlen : 0 < (sortStrings cs).length := List.length_pos.mpr (List.ne_nil_of_mem hx)
  have hub : searchStrings (sortStrings cs) x ≤ (sortStrings cs).length :=
    searchStrings_le_length (sortStrings cs) x
  have hge : 1 ≤ searchStrings (sortStrings cs) x := by
    by_contra hlt
    have h0 : searchStrings (sortStrings cs) x = 0 := by omega
    have hall := (searchStrings_spec (sortStrings cs) x hsort).2
    have hx0 : goStringLe x ((sortStrings cs).getD 0 "") = true := hall 0 (by omega) hlen
    obtain ⟨idx, hidx⟩ := List.mem_iff_get.mp hx
    have hgetidx : (sortStrings cs).getD idx.val "" = x := by
      rw [getD_eq_get (sortStrings cs) idx.val idx.isLt]
      exact hidx
    have h0m : goStringLe ((sortStrings cs).getD 0 "") x = true := by
      have := sorted_getD_le (sortStrings cs) hsort 0 idx.val (Nat.zero_le _) idx.isLt
      rwa [hgetidx] at this
    have heq : (sortStrings cs).getD 0 "" = x := goStringLe_antisymm h0m hx0
    have hhead : (sortStrings cs).headD "" = (sortStrings cs).getD 0 "" := by
      cases hlist : sortStrings cs with
      | nil => rw [hlist] at hlen; simp at hlen
      | cons a t => rfl
    exact hne (hhead.trans heq)
  exact ⟨hge, by omega⟩

/-- Witness for C9 (amended) on a concrete listing containing the own
name. -/
theorem pred_index_in_bounds_witness :
    1 ≤ searchStrings (sortStrings ["0000000002", "0000000001"]) "0000000002"
    ∧ searchStrings (sortStrings ["0000000002", "0000000001"]) "0000000002" - 1
        < (sortStrings ["0000000002", "0000000001"]).length :=
  pred_index_in_bounds_of_mem ["0000000002", "0000000001"] "0000000002" (by decide) (by decide)

/-- Claim C1: mutual exclusion.  In every state reachable by any
interleaving of any number of handles contending on the same lock root,
at most one handle has `locked = true`: two locked handles are equal.
A locked handle's node is the minimum child and distinct handles hold
distinct nodes, so two locked handles would hold the same minimum. -/
theorem mutual_exclusion_reachable {ι : Type} [DecidableEq ι] (s : GState ι)
    (hr : Reachable s) (i j : ι)
    (hi : (s.hs i).locked = true) (hj : (s.hs j).locked = true) : i = j := by
  have hInv := inv_reachable hr
  obtain ⟨n, hn, hmin⟩ := hInv.locked_min i hi
  obtain ⟨m, hm, hmmin⟩ := hInv.locked_min j hj
  have hnm : n = m :=
    le_antisymm (hmin m (hInv.node_mem j m hm)) (hmmin n (hInv.node_mem i n hn))
  exact hInv.node_inj i j n hn (hnm ▸ hm)

/-- Witness for C1: a concrete two-handle system in which handle `true`
has created node 0 and acquired; the state is reachable and locked, and
the theorem applied to it at `i = j = true` gives `true = true`. -/
theorem mutual_exclusion_witness :
    ((⟨1, insert 0 ∅,
        Function.update
          (Function.update (fun _ => Handle.start) true ⟨some 0, PC.looping, false⟩)
          true ⟨some 0, PC.stopped, true⟩⟩ : GState Bool).hs true).locked = true
    ∧ (true : Bool) = true := by
  constructor
  · rfl
  · exact mutual_exclusion_reachable
      (⟨1, insert 0 ∅,
          Function.update
            (Function.update (fun _ => Handle.start) true ⟨some 0, PC.looping, false⟩)
            true ⟨some 0, PC.stopped, true⟩⟩ : GState Bool)
      (Relation.ReflTransGen.head
        (Step.create (startState Bool) true rfl rfl rfl)
        (Relation.ReflTransGen.head
          (Step.listAcquire _ true 0 rfl rfl (Finset.mem_insert_self 0 ∅)
            (fun m _ => Nat.zero_le m))
          Relation.ReflTransGen.refl))
      true true rfl rfl

end ZkRecipes
